import Mathlib

/-!
Verification of `fusenet/model_selection/stability.py` (class `Stability`).

Shallow embedding conventions:
* `ndarray` dependency / adjacency matrices of shape `(p, p)` become
  `Mat p := Fin p → Fin p → ℚ`; floating-point numbers are modelled as exact
  rationals.
* A floating-point NaN (which arises in `_adj_var` as `0.0 / 0.0` when the
  matrix has fewer than two rows) is modelled by `none : Option ℚ`;
  `np.min` propagates NaN and `NaN <= beta` is false, which `npMin` and
  `nanLe` reproduce.
* Python exceptions become the `PyErr` error type threaded through `Except`:
  the `assert` in `optimal_reg` raises `AssertionError` (`shapeMismatch`),
  `reduce(np.add, [])` raises `TypeError` (`typeError`), and `rhos[-2]` on a
  list of fewer than two elements raises `IndexError` (`indexError`).
* Python dicts keyed by a rho value (`rho2adjs`, `rho2mean_adj`, `rho2var`)
  become association lists built in insertion order with overwrite-in-place
  semantics (`dictInsert` / `rhoIdxDict`); a duplicated rho value therefore
  keeps a single entry whose payload comes from the *last* enumeration index
  with that value, exactly as repeated dict assignment does.
* `sample2deps` is a dict whose keys are never inspected except for counting,
  so it is modelled as the list of its values, one entry per subsample.
* `warnings.warn` in the fallback branch is modelled by the `Bool` component
  of the result: `true` iff the warning was emitted.
-/

namespace Fusenet

/-- A square `p × p` matrix of (exact) rationals, standing for an `ndarray`
of shape `(p, p)`. -/
abbrev Mat (p : ℕ) := Fin p → Fin p → ℚ

/-- `dep_matrix.T`. -/
def transpose {p : ℕ} (m : Mat p) : Mat p := fun i j => m j i

/-- Default relative tolerance of `np.allclose`. -/
def rtol : ℚ := 1 / 100000

/-- Default absolute tolerance of `np.allclose`. -/
def atol : ℚ := 1 / 100000000

/-- `np.allclose(a, b)`: every entry satisfies `|a - b| <= atol + rtol * |b|`. -/
def allclose {p : ℕ} (a b : Mat p) : Bool :=
  decide (∀ i j, |a i j - b i j| ≤ atol + rtol * |b i j|)

/-- The configuration held by the `Stability` object: `beta` (stability
bound, default 0.05) and `thres` (edge threshold, default 0.001).  The
`verbose` flag only controls a `print` and is not modelled. -/
structure Stability where
  beta : ℚ
  thres : ℚ

/-- `Stability._dep2adj`: convert a dependency matrix into a 0/1 adjacency
matrix.  If the matrix is `np.allclose` to its transpose, an edge is drawn
iff `|dep[i,j]| > thres`; otherwise the two directions are combined with
`np.maximum`, i.e. an OR of the two thresholded entries.  (The squareness
`assert` is enforced by the type `Mat p`.) -/
def dep2adj {p : ℕ} (S : Stability) (dep : Mat p) : Mat p :=
  if allclose dep (transpose dep) then
    fun i j => if S.thres < |dep i j| then 1 else 0
  else
    fun i j => if S.thres < |dep i j| ∨ S.thres < |dep j i| then 1 else 0

/-- The index pairs produced by `np.triu_indices(p, k=1)`: the strict upper
triangle `i < j`. -/
def triuPairs (p : ℕ) : Finset (Fin p × Fin p) :=
  Finset.univ.filter fun ij => ij.1 < ij.2

/-- `Stability._adj_var`: `sum(2 * m[i,j] * (1 - m[i,j]) for i < j) / comb(p, 2)`.
When `p < 2` the pair list is empty and `comb(p, 2) = 0`, so the float code
computes `0.0 / 0.0 = NaN`; this is modelled by `none`. -/
def adj_var {p : ℕ} (mean_adj : Mat p) : Option ℚ :=
  let nck : ℚ := (p.choose 2 : ℚ)
  if nck = 0 then none
  else some ((∑ ij ∈ triuPairs p,
    2 * mean_adj ij.1 ij.2 * (1 - mean_adj ij.1 ij.2)) / nck)

/-- The all-zero matrix, used as the (never reachable after the length
check) default for out-of-range list access. -/
def zeroMat (p : ℕ) : Mat p := fun _ _ => 0

/-- `enumerate(rhos)` starting at index `i`. -/
def enumFrom (i : ℕ) : List ℚ → List (ℕ × ℚ)
  | [] => []
  | r :: rs => (i, r) :: enumFrom (i + 1) rs

/-- `d[k] = v` on a dict represented as an association list: overwrite in
place if the key is present, otherwise append. -/
def dictInsert (m : List (ℚ × ℕ)) (k : ℚ) (v : ℕ) : List (ℚ × ℕ) :=
  if m.any fun kv => decide (kv.1 = k) then
    m.map fun kv => if kv.1 = k then (kv.1, v) else kv
  else m ++ [(k, v)]

/-- Fold a list of `(index, rho)` pairs into a dict keyed by rho value. -/
def buildDict : List (ℚ × ℕ) → List (ℕ × ℚ) → List (ℚ × ℕ)
  | m, [] => m
  | m, iv :: rest => buildDict (dictInsert m iv.2 iv.1) rest

/-- The key structure shared by `rho2adjs`, `rho2mean_adj` and `rho2var`:
for each distinct rho value, the enumeration index whose assignment
survives (the last one, by dict overwrite). -/
def rhoIdxDict (rhos : List ℚ) : List (ℚ × ℕ) :=
  buildDict [] (enumFrom 0 rhos)

/-- `[self._dep2adj(dep) for dep in deps]` for every subsample. -/
def sample2adjs {p : ℕ} (S : Stability) (s2d : List (List (Mat p))) :
    List (List (Mat p)) :=
  s2d.map fun deps => deps.map (dep2adj S)

/-- `reduce(np.add, [vals[i] for vals in sample2adjs.values()])`. -/
def adjSumAt {p : ℕ} (adjs : List (List (Mat p))) (i : ℕ) : Mat p :=
  (adjs.map fun vals => vals.getD i (zeroMat p)).sum

/-- The mean adjacency for enumeration index `i`: the elementwise sum of
the subsamples' `i`-th adjacency matrices divided by the subsample count. -/
def meanAdjAt {p : ℕ} (S : Stability) (s2d : List (List (Mat p))) (i : ℕ) :
    Mat p :=
  fun a b => adjSumAt (sample2adjs S s2d) i a b / (s2d.length : ℚ)

/-- `min` of two possibly-NaN floats as `np.min` combines them: NaN
poisons the result. -/
def nanMin2 : Option ℚ → Option ℚ → Option ℚ
  | some a, some b => some (min a b)
  | _, _ => none

/-- `np.min` over a list of possibly-NaN floats.  In `optimal_reg` the list
always contains the candidate's own entry, so the empty case is unreachable;
it is mapped to `none` for totality. -/
def npMin : List (Option ℚ) → Option ℚ
  | [] => none
  | x :: xs => xs.foldl nanMin2 x

/-- `min_var <= beta` on a possibly-NaN float: any comparison with NaN is
false. -/
def nanLe (x : Option ℚ) (b : ℚ) : Bool :=
  match x with
  | some v => decide (v ≤ b)
  | none => false

/-- The value stored in `rho2var` for dict entry `kv = (rho value, index)`. -/
def varOfEntry {p : ℕ} (S : Stability) (s2d : List (List (Mat p)))
    (kv : ℚ × ℕ) : Option ℚ :=
  adj_var (meanAdjAt S s2d kv.2)

/-- `np.min([var for lambd, var in rho2var.iteritems() if lambd <= rho])`:
the running minimum of the instability scores over all stored rho values
`<= rho`. -/
def runningMin {p : ℕ} (S : Stability) (rhos : List ℚ)
    (s2d : List (List (Mat p))) (rho : ℚ) : Option ℚ :=
  npMin (((rhoIdxDict rhos).filter fun kv => decide (kv.1 ≤ rho)).map
    (varOfEntry S s2d))

/-- `sorted(rhos)`: ascending, duplicates kept.  (Python's sort is stable,
but on plain numbers any correct ascending sort yields the same list.) -/
def sortRhos (rhos : List ℚ) : List ℚ :=
  rhos.insertionSort (· ≤ ·)

/-- The ascending scan of `optimal_reg`: the first sorted rho whose running
minimum is `<= beta`, or `none` when the loop falls through. -/
def scanSelect {p : ℕ} (S : Stability) (rhos : List ℚ)
    (s2d : List (List (Mat p))) : Option ℚ :=
  (sortRhos rhos).find? fun rho => nanLe (runningMin S rhos s2d rho) S.beta

/-- The exceptions `optimal_reg` can raise. -/
inductive PyErr where
  | shapeMismatch
  | typeError
  | indexError
deriving DecidableEq

/-- `Stability.optimal_reg(rhos, sample2deps)`.  Returns the selected rho
together with a flag recording whether the fallback warning was emitted.
Control flow of the source:
1. `assert np.all([len(rhos) == len(deps) ...])` — `AssertionError` when some
   subsample's sequence length differs (`np.all` of an empty list is `True`,
   so an empty `sample2deps` passes);
2. the aggregation loop calls `reduce(np.add, [])` — `TypeError` — when
   `sample2deps` is empty and `rhos` is not;
3. the ascending scan returns the first rho whose running minimum is
   `<= beta`, without a warning;
4. otherwise the fallback `sorted(rhos)[-2]` — `IndexError` when
   `len(rhos) < 2` — is returned with a warning. -/
def optimal_reg {p : ℕ} (S : Stability) (rhos : List ℚ)
    (s2d : List (List (Mat p))) : Except PyErr (ℚ × Bool) :=
  if s2d.all fun deps => deps.length == rhos.length then
    if s2d.isEmpty && !rhos.isEmpty then .error .typeError
    else
      match scanSelect S rhos s2d with
      | some r => .ok (r, false)
      | none =>
        if rhos.length < 2 then .error .indexError
        else .ok ((sortRhos rhos).getD (rhos.length - 2) 0, true)
  else .error .shapeMismatch

/-- Modelled from the spec (4.3, steps 2–3): the selector as the spec words
it, with the instability score kept *per position index* ("by position
index, not by numeric value, to tolerate duplicate rho values"), so that no
two positions ever collapse into one dict key.  Used only as the reference
point for the refinement claim about duplicate tolerance. -/
def optimal_reg_byPos {p : ℕ} (S : Stability) (rhos : List ℚ)
    (s2d : List (List (Mat p))) : Option ℚ :=
  (sortRhos rhos).find? fun rho =>
    nanLe (npMin (((enumFrom 0 rhos).filter fun iv => decide (iv.2 ≤ rho)).map
      fun iv => adj_var (meanAdjAt S s2d iv.1))) S.beta

/-! ### Concrete instances used by witnesses and counterexamples -/

/-- The default configuration: `beta = 0.05`, `thres = 0.001`. -/
def S0 : Stability := ⟨1/20, 1/1000⟩

/-- The zero dependency matrix over two features: no edges. -/
def Zmat : Mat 2 := fun _ _ => 0

/-- A symmetric dependency matrix over two features whose off-diagonal
dependency `1` is far above the threshold: one edge. -/
def Emat : Mat 2 := ![![0, 1], ![1, 0]]

/-- A dependency matrix that is `np.allclose` to its transpose without being
exactly symmetric: the off-diagonal entries `0.001 ± 1e-9` straddle the
threshold `0.001` while differing by only `2e-9`. -/
def nearSym : Mat 2 := ![![0, 1000001/1000000000], ![999999/1000000000, 0]]

/-- Spec scenario 3: exactly symmetric entries `0.002` above the
threshold. -/
def symmMat : Mat 2 := ![![0, 1/500], ![1/500, 0]]

/-- Spec scenario 4: asymmetric entries `0.0005` (below threshold) and
`0.002` (above threshold). -/
def asymMat : Mat 2 := ![![0, 1/2000], ![1/500, 0]]

/-- Two subsamples over three regularization positions whose adjacency
disagrees at positions 0 and 1 (instability `1/2`) and agrees at
position 2 (instability `0`). -/
def s2dA : List (List (Mat 2)) := [[Emat, Emat, Zmat], [Zmat, Zmat, Zmat]]

/-- Two subsamples disagreeing at both of two positions: instability `1/2`
everywhere, so no candidate ever meets the bound. -/
def s2dB : List (List (Mat 2)) := [[Emat, Emat], [Zmat, Zmat]]

/-- Two subsamples over four positions with per-position instabilities
`[0, 1/2, 1/2, 0]`. -/
def s2dC : List (List (Mat 2)) := [[Zmat, Emat, Emat, Zmat], [Zmat, Zmat, Zmat, Zmat]]

/-! ### Helper lemmas -/

/-- The strict upper triangle of a `p × p` matrix has `C(p, 2)` entries. -/
lemma triuPairs_card (p : ℕ) : (triuPairs p).card = p.choose 2 := by
  have hfib : ∀ j : Fin p, ((triuPairs p).filter fun ij => ij.2 = j).card
      = (Finset.Iio j).card := by
    intro j
    apply Finset.card_bij (fun ij _ => ij.1)
    · intro ij hij
      simp only [triuPairs, Finset.mem_filter, Finset.mem_univ, true_and] at hij
      exact Finset.mem_Iio.mpr (hij.2 ▸ hij.1)
    · intro a ha b hb hab
      simp only [triuPairs, Finset.mem_filter] at ha hb
      exact Prod.ext hab (ha.2.trans hb.2.symm)
    · intro i hi
      refine ⟨(i, j), Finset.mem_filter.mpr
        ⟨Finset.mem_filter.mpr ⟨Finset.mem_univ _, ?_⟩, rfl⟩, rfl⟩
      exact Finset.mem_Iio.mp hi
  rw [Finset.card_eq_sum_card_fiberwise
    (f := Prod.snd) (t := Finset.univ) (fun x _ => Finset.mem_univ _)]
  simp only [hfib, Fin.card_Iio]
  rw [Fin.sum_univ_eq_sum_range (fun j => j) p, Finset.sum_range_id,
    Nat.choose_two_right]

/-- `np.allclose(a, a)` always holds. -/
lemma allclose_self {p : ℕ} (a : Mat p) : allclose a a = true := by
  simp only [allclose, decide_eq_true_eq]
  intro i j
  rw [sub_self, abs_zero]
  have h1 : (0 : ℚ) ≤ atol := by norm_num [atol]
  have h2 : (0 : ℚ) ≤ rtol * |a i j| := by
    apply mul_nonneg _ (abs_nonneg _)
    norm_num [rtol]
  linarith

/-- Evaluation of `adj_var` on `2 × 2` matrices: a single pair `(0, 1)`. -/
lemma adj_var_two (m : Mat 2) : adj_var m = some (2 * m 0 1 * (1 - m 0 1)) := by
  have h : triuPairs 2 = {((0 : Fin 2), (1 : Fin 2))} := by decide
  simp [adj_var, h]

/-- `List.find?` returns the first element satisfying the predicate. -/
lemma find?_first {α : Type _} (q : α → Bool) :
    ∀ (l₁ : List α) (r : α) (l₂ : List α), (∀ x ∈ l₁, q x = false) → q r = true →
      (l₁ ++ r :: l₂).find? q = some r := by
  intro l₁
  induction l₁ with
  | nil => intro r l₂ _ hr; simpa [List.find?_cons] using List.find?_cons_of_pos _ hr
  | cons a t ih =>
    intro r l₂ hneg hr
    rw [List.cons_append,
      List.find?_cons_of_neg _ (by simp [hneg a (List.mem_cons_self a t)])]
    exact ih r l₂ (fun x hx => hneg x (by simp [hx])) hr

/-! ### Claims about `_adj_var` (C3, C4, C9) -/

/-- C3: for every `p × p` mean-adjacency matrix with `p ≥ 2`, the instability
score is the arithmetic mean, over the `C(p,2)` strict-upper-triangle pairs
`(i, j)` with `i < j`, of the per-pair contribution `2·f·(1−f)` where
`f = meanAdj[i,j]`. -/
theorem adj_var_is_pair_mean {p : ℕ} (m : Mat p) (h : 2 ≤ p) :
    adj_var m = some ((∑ ij ∈ triuPairs p,
        2 * m ij.1 ij.2 * (1 - m ij.1 ij.2)) / ((triuPairs p).card : ℚ)) ∧
      (triuPairs p).card = p.choose 2 := by
  have hcard := triuPairs_card p
  have hpos : 0 < p.choose 2 := Nat.choose_pos h
  refine ⟨?_, hcard⟩
  rw [adj_var, if_neg (by exact_mod_cast hpos.ne'), hcard]

/-- Witness for C3 at the concrete all-½ matrix over two features. -/
theorem adj_var_is_pair_mean_witness :
    adj_var (fun _ _ => (1/2 : ℚ) : Mat 2) = some ((∑ _ij ∈ triuPairs 2,
        2 * (1/2 : ℚ) * (1 - (1/2 : ℚ))) / ((triuPairs 2).card : ℚ)) ∧
      (triuPairs 2).card = Nat.choose 2 2 :=
  adj_var_is_pair_mean (fun _ _ => (1/2 : ℚ)) (by norm_num)

/-- C4 (amended): for entries in `[0,1]` and `p ≥ 2` the instability score
is defined (not NaN) and lies in `[0, 1/2]` (hence in `[0,1]`); it is `0`
when every pair's frequency is 0 or 1, and its peak value, attained when
every pair's frequency is exactly `1/2`, is `1/2` — not `1`. -/
theorem adj_var_bounds_peak_half {p : ℕ} (m : Mat p) (h2 : 2 ≤ p)
    (hm : ∀ i j : Fin p, 0 ≤ m i j ∧ m i j ≤ 1) :
    ∃ v, adj_var m = some v ∧ 0 ≤ v ∧ v ≤ 1/2 ∧ v ≤ 1 ∧
      ((∀ i j : Fin p, i < j → m i j = 0 ∨ m i j = 1) → v = 0) ∧
      ((∀ i j : Fin p, i < j → m i j = 1/2) → v = 1/2) := by
  have hcard := triuPairs_card p
  have hpos : 0 < p.choose 2 := Nat.choose_pos h2
  have hq : (0 : ℚ) < (p.choose 2 : ℚ) := by exact_mod_cast hpos
  refine ⟨_, by rw [adj_var, if_neg hq.ne'], ?_, ?_, ?_, ?_, ?_⟩
  · apply div_nonneg _ hq.le
    apply Finset.sum_nonneg
    intro ij _
    have h0 := (hm ij.1 ij.2).1
    have h1 := (hm ij.1 ij.2).2
    nlinarith
  · rw [div_le_iff₀ hq]
    calc ∑ ij ∈ triuPairs p, 2 * m ij.1 ij.2 * (1 - m ij.1 ij.2)
        ≤ (triuPairs p).card • (1/2 : ℚ) := by
          apply Finset.sum_le_card_nsmul
          intro ij _
          have h0 := (hm ij.1 ij.2).1
          have h1 := (hm ij.1 ij.2).2
          nlinarith [sq_nonneg (2 * m ij.1 ij.2 - 1)]
      _ = (1/2 : ℚ) * (p.choose 2 : ℚ) := by
          rw [nsmul_eq_mul, hcard, mul_comm]
  · rw [div_le_iff₀ hq]
    have hsum : ∑ ij ∈ triuPairs p, 2 * m ij.1 ij.2 * (1 - m ij.1 ij.2)
        ≤ (triuPairs p).card • (1/2 : ℚ) := by
      apply Finset.sum_le_card_nsmul
      intro ij _
      have h0 := (hm ij.1 ij.2).1
      have h1 := (hm ij.1 ij.2).2
      nlinarith [sq_nonneg (2 * m ij.1 ij.2 - 1)]
    rw [nsmul_eq_mul, hcard] at hsum
    nlinarith
  · intro hall
    rw [Finset.sum_eq_zero, zero_div]
    intro ij hij
    simp only [triuPairs, Finset.mem_filter, Finset.mem_univ, true_and] at hij
    rcases hall ij.1 ij.2 hij with h | h <;> rw [h] <;> ring
  · intro hall
    have hterm : ∀ ij ∈ triuPairs p,
        2 * m ij.1 ij.2 * (1 - m ij.1 ij.2) = (1/2 : ℚ) := by
      intro ij hij
      simp only [triuPairs, Finset.mem_filter, Finset.mem_univ, true_and] at hij
      rw [hall ij.1 ij.2 hij]
      norm_num
    rw [Finset.sum_congr rfl hterm, Finset.sum_const, hcard, nsmul_eq_mul,
      mul_comm, mul_div_assoc, div_self hq.ne', mul_one]

/-- Counterexample to C4 as stated: at the all-½ mean adjacency over two
features (every pair's frequency exactly 0.5) the score is `1/2`, not `1`. -/
theorem adj_var_peak_is_half_not_one :
    adj_var (fun _ _ => (1/2 : ℚ) : Mat 2) = some (1/2) ∧ ((1:ℚ)/2 = 1 → False) := by
  constructor
  · rw [adj_var_two]
    norm_num
  · intro h
    norm_num at h

/-- Witness for C4 (amended) at the concrete all-½ matrix over two features. -/
theorem adj_var_bounds_peak_half_witness :
    ∃ v, adj_var (fun _ _ => (1/2 : ℚ) : Mat 2) = some v ∧ 0 ≤ v ∧ v ≤ 1/2 ∧ v ≤ 1 ∧
      ((∀ i j : Fin 2, i < j → (1/2 : ℚ) = 0 ∨ (1/2 : ℚ) = 1) → v = 0) ∧
      ((∀ i j : Fin 2, i < j → (1/2 : ℚ) = 1/2) → v = 1/2) :=
  adj_var_bounds_peak_half (fun _ _ => (1/2 : ℚ)) (by norm_num)
    (fun _ _ => by norm_num)

/-- C9 (amended): for `p < 2` the instability computation does not raise;
`comb(p, 2) = 0` and the float division `0.0 / 0.0` silently yields NaN
(modelled by `none`). -/
theorem adj_var_nan_below_two_features {p : ℕ} (m : Mat p) (h : p < 2) :
    adj_var m = none := by
  rw [adj_var, if_pos]
  rw [Nat.choose_eq_zero_of_lt h]
  norm_num

/-- Counterexample to C9 as stated: on a `1 × 1` matrix the computation
returns NaN (no `DomainError`, no exception). -/
theorem adj_var_one_feature_returns_nan :
    adj_var (fun _ _ => (0 : ℚ) : Mat 1) = none := by
  rw [adj_var, if_pos]
  norm_num

/-- Witness for C9 (amended) at a `0 × 0` matrix. -/
theorem adj_var_nan_below_two_features_witness :
    adj_var (fun _ _ => (0 : ℚ) : Mat 0) = none :=
  adj_var_nan_below_two_features (fun _ _ => (0 : ℚ)) (by norm_num)

/-! ### Claims about `_dep2adj` (C5, C6) -/

/-- `np.allclose(dep, dep.T)` unfolded to its entrywise tolerance test. -/
lemma allclose_transpose_iff {p : ℕ} (dep : Mat p) :
    allclose dep (transpose dep) = true ↔
      ∀ i j, |dep i j - dep j i| ≤ atol + rtol * |dep j i| := by
  simp [allclose, transpose]

/-- The near-symmetric matrix passes the `np.allclose` symmetry test. -/
lemma allclose_nearSym : allclose nearSym (transpose nearSym) = true := by
  rw [allclose_transpose_iff]
  rw [Fin.forall_fin_two]
  constructor <;> rw [Fin.forall_fin_two] <;> constructor <;>
    norm_num [nearSym, atol, rtol] <;>
    rw [abs_of_pos (by norm_num), abs_of_pos (by norm_num)] <;> norm_num

/-- C5 (amended): the adjacency always has entries in `{0, 1}`; it is
symmetric whenever the input is exactly symmetric, and whenever the
OR-symmetrization branch runs.  (The remaining case — `np.allclose`
symmetric but not exactly symmetric — can produce an asymmetric output;
see the counterexample.) -/
theorem dep2adj_entries_and_symmetry {p : ℕ} (S : Stability) (dep : Mat p) :
    (∀ i j, dep2adj S dep i j = 0 ∨ dep2adj S dep i j = 1) ∧
    ((∀ i j, dep i j = dep j i) →
      ∀ i j, dep2adj S dep i j = dep2adj S dep j i) ∧
    (allclose dep (transpose dep) = false →
      ∀ i j, dep2adj S dep i j = dep2adj S dep j i) := by
  refine ⟨?_, ?_, ?_⟩
  · intro i j
    by_cases h : allclose dep (transpose dep) <;>
      simp only [dep2adj, h, if_true, if_false, Bool.false_eq_true] <;>
      split <;> simp
  · intro hsym i j
    have ht : transpose dep = dep := funext fun a => funext fun b => (hsym a b).symm
    simp only [dep2adj, ht, allclose_self, if_true]
    rw [hsym i j]
  · intro h i j
    simp only [dep2adj, h, Bool.false_eq_true, if_false]
    exact if_congr or_comm rfl rfl

/-- Counterexample to C5 as stated: a dependency matrix that is
`np.allclose`-symmetric but not exactly symmetric takes the symmetric
branch, and its entries `0.001 ± 1e-9` straddle the threshold `0.001`,
producing an asymmetric adjacency matrix. -/
theorem dep2adj_asymmetric_output_near_symmetric_input :
    dep2adj S0 nearSym 0 1 = 1 ∧ dep2adj S0 nearSym 1 0 = 0 := by
  constructor <;>
  · simp only [dep2adj, allclose_nearSym, if_true]
    norm_num [nearSym, S0]
    rw [abs_of_pos (by norm_num)]
    norm_num

/-- Witness for C5 (amended) at the exactly symmetric one-edge matrix. -/
theorem dep2adj_entries_and_symmetry_witness :
    (dep2adj S0 Emat 0 1 = 0 ∨ dep2adj S0 Emat 0 1 = 1) ∧
      dep2adj S0 Emat 0 1 = dep2adj S0 Emat 1 0 :=
  ⟨(dep2adj_entries_and_symmetry S0 Emat).1 0 1,
    (dep2adj_entries_and_symmetry S0 Emat).2.1
      (by intro i j; fin_cases i <;> fin_cases j <;> simp [Emat]) 0 1⟩

/-- C6: if every entry of the dependency matrix matches its transpose
within the `np.allclose` tolerance, the adjacency entry `(i,j)` is `1` iff
`|dep[i,j]| > thres`; otherwise it is `1` iff `|dep[i,j]| > thres` or
`|dep[j,i]| > thres`. -/
theorem dep2adj_branch_semantics {p : ℕ} (S : Stability) (dep : Mat p) :
    ((∀ i j, |dep i j - dep j i| ≤ atol + rtol * |dep j i|) →
      ∀ i j, dep2adj S dep i j = if S.thres < |dep i j| then 1 else 0) ∧
    ((¬ ∀ i j, |dep i j - dep j i| ≤ atol + rtol * |dep j i|) →
      ∀ i j, dep2adj S dep i j =
        if S.thres < |dep i j| ∨ S.thres < |dep j i| then 1 else 0) := by
  constructor
  · intro h i j
    have hb : allclose dep (transpose dep) = true := (allclose_transpose_iff dep).mpr h
    simp only [dep2adj, hb, if_true]
  · intro h i j
    have hb : allclose dep (transpose dep) = false := by
      rcases Bool.eq_false_or_eq_true (allclose dep (transpose dep)) with ht | hf
      · exact absurd ((allclose_transpose_iff dep).mp ht) h
      · exact hf
    simp only [dep2adj, hb, Bool.false_eq_true, if_false]

/-- Witness for C6: spec scenarios 3 and 4.  The exactly symmetric matrix
with entries `0.002` takes the symmetric branch and yields an edge; the
asymmetric matrix with entries `0.0005 / 0.002` takes the OR branch and
yields an edge at `(0,1)` although `|dep[0,1]|` alone is below the
threshold. -/
theorem dep2adj_branch_semantics_witness :
    dep2adj S0 symmMat 0 1 = 1 ∧ dep2adj S0 asymMat 0 1 = 1 := by
  constructor
  · have hcond : S0.thres < |symmMat 0 1| := by
      rw [show symmMat 0 1 = 1/500 by norm_num [symmMat], abs_of_pos (by norm_num)]
      norm_num [S0]
    refine ((dep2adj_branch_semantics S0 symmMat).1 ?_ 0 1).trans (if_pos hcond)
    rw [Fin.forall_fin_two]
    constructor <;> rw [Fin.forall_fin_two] <;> constructor <;>
      norm_num [symmMat, atol, rtol] <;> positivity
  · have hcond : S0.thres < |asymMat 0 1| ∨ S0.thres < |asymMat 1 0| := by
      right
      rw [show asymMat 1 0 = 1/500 by norm_num [asymMat], abs_of_pos (by norm_num)]
      norm_num [S0]
    refine ((dep2adj_branch_semantics S0 asymMat).2 ?_ 0 1).trans (if_pos hcond)
    intro h
    have h01 := h 0 1
    rw [show asymMat 0 1 = 1/2000 by norm_num [asymMat],
      show asymMat 1 0 = 1/500 by norm_num [asymMat]] at h01
    rw [abs_of_neg (by norm_num), abs_of_pos (by norm_num)] at h01
    norm_num [atol, rtol] at h01

/-! ### Helper lemmas for `optimal_reg` -/

/-- Once the length `assert` passes and `sample2deps` is non-empty,
`optimal_reg` is the scan followed by the fallback. -/
lemma optimal_reg_eq_scan {p : ℕ} (S : Stability) (rhos : List ℚ)
    (s2d : List (List (Mat p)))
    (hall : (s2d.all fun deps => deps.length == rhos.length) = true)
    (hne : s2d ≠ []) :
    optimal_reg S rhos s2d =
      match scanSelect S rhos s2d with
      | some r => .ok (r, false)
      | none =>
        if rhos.length < 2 then .error .indexError
        else .ok ((sortRhos rhos).getD (rhos.length - 2) 0, true) := by
  have hie : s2d.isEmpty = false := by
    cases s2d with
    | nil => exact absurd rfl hne
    | cons a t => rfl
  rw [optimal_reg, if_pos hall]
  rw [hie]
  simp

/-- Bool-valued `all` is invariant under permutation. -/
lemma perm_all {α : Type _} {l₁ l₂ : List α} (h : l₁.Perm l₂) (f : α → Bool) :
    l₁.all f = l₂.all f := by
  induction h with
  | nil => rfl
  | cons x _ ih => simp only [List.all_cons, ih]
  | swap x y l => simp only [List.all_cons, ← Bool.and_assoc, Bool.and_comm (f x) (f y)]
  | trans _ _ ih₁ ih₂ => exact ih₁.trans ih₂

/-- `isEmpty` is invariant under permutation. -/
lemma perm_isEmpty {α : Type _} {l₁ l₂ : List α} (h : l₁.Perm l₂) :
    l₁.isEmpty = l₂.isEmpty := by
  cases l₁ with
  | nil =>
    cases l₂ with
    | nil => rfl
    | cons b t => exact absurd (List.perm_nil.mp h.symm) (by simp)
  | cons a t =>
    cases l₂ with
    | nil => exact absurd (List.perm_nil.mp h) (by simp)
    | cons b t' => rfl

/-- The mean adjacency is invariant under permutation of the subsamples:
the elementwise integer sum is commutative and the count is preserved. -/
lemma perm_meanAdjAt {p : ℕ} (S : Stability) {s2d₁ s2d₂ : List (List (Mat p))}
    (h : s2d₁.Perm s2d₂) : meanAdjAt S s2d₁ = meanAdjAt S s2d₂ := by
  funext i a b
  have hsum : adjSumAt (sample2adjs S s2d₁) i = adjSumAt (sample2adjs S s2d₂) i :=
    List.Perm.sum_eq (((h.map fun deps => deps.map (dep2adj S))).map
      fun vals => vals.getD i (zeroMat p))
  show adjSumAt (sample2adjs S s2d₁) i a b / (s2d₁.length : ℚ)
      = adjSumAt (sample2adjs S s2d₂) i a b / (s2d₂.length : ℚ)
  rw [hsum, h.length_eq]

/-! ### Claims about `optimal_reg` control flow (C1, C2, C8, C10) -/

/-- C1: with valid inputs, `optimal_reg` scans the (ascending) sorted
regularization values and returns the first one whose running minimum of
instability scores over all values `<= rho` is `<= beta`, stopping there,
with no warning emitted. -/
theorem optimal_reg_first_match {p : ℕ} (S : Stability) (rhos : List ℚ)
    (s2d : List (List (Mat p)))
    (hall : (s2d.all fun deps => deps.length == rhos.length) = true)
    (hne : s2d ≠ []) (l₁ : List ℚ) (r : ℚ) (l₂ : List ℚ)
    (hsort : sortRhos rhos = l₁ ++ r :: l₂)
    (hl₁ : ∀ x ∈ l₁, nanLe (runningMin S rhos s2d x) S.beta = false)
    (hr : nanLe (runningMin S rhos s2d r) S.beta = true) :
    optimal_reg S rhos s2d = .ok (r, false) ∧
      (sortRhos rhos).Sorted (· ≤ ·) := by
  constructor
  · rw [optimal_reg_eq_scan S rhos s2d hall hne]
    have hscan : scanSelect S rhos s2d = some r := by
      rw [scanSelect, hsort]
      exact find?_first _ l₁ r l₂ hl₁ hr
    rw [hscan]
  · exact List.sorted_insertionSort _ _

/-- C2 (amended): when no candidate meets the bound, `optimal_reg` returns
`sorted(rhos)[-2]` — the second-to-last element of the *full* sorted path,
duplicates included — together with the warning; `IndexError` occurs
exactly when the path has fewer than two *elements* (not: fewer than two
distinct values). -/
theorem optimal_reg_fallback {p : ℕ} (S : Stability) (rhos : List ℚ)
    (s2d : List (List (Mat p)))
    (hall : (s2d.all fun deps => deps.length == rhos.length) = true)
    (hne : s2d ≠ []) (hscan : scanSelect S rhos s2d = none) :
    (2 ≤ rhos.length →
      optimal_reg S rhos s2d
        = .ok ((sortRhos rhos).getD (rhos.length - 2) 0, true)) ∧
    (rhos.length < 2 → optimal_reg S rhos s2d = .error .indexError) := by
  rw [optimal_reg_eq_scan S rhos s2d hall hne, hscan]
  constructor
  · intro h2
    rw [if_neg (by omega)]
  · intro h2
    rw [if_pos h2]

/-- C8 (amended): the `assert` raises exactly on a subsample whose sequence
length differs from `len(rhos)` — before any computation, since the
embedding is a pure function that short-circuits.  An *empty*
`sample2deps` passes the assert vacuously (`np.all([]) = True`) and the
call instead dies later with a `TypeError` from `reduce(np.add, [])` (when
`rhos` is non-empty). -/
theorem optimal_reg_precondition_errors {p : ℕ} (S : Stability) :
    (∀ (rhos : List ℚ) (s2d : List (List (Mat p))),
      (∃ deps ∈ s2d, deps.length ≠ rhos.length) →
        optimal_reg S rhos s2d = .error .shapeMismatch) ∧
    (∀ rhos : List ℚ, rhos ≠ [] →
      optimal_reg S rhos ([] : List (List (Mat p))) = .error .typeError) := by
  constructor
  · rintro rhos s2d ⟨deps, hd, hlen⟩
    rw [optimal_reg, if_neg]
    intro hall
    exact hlen (by simpa using List.all_eq_true.mp hall deps hd)
  · intro rhos hrne
    rw [optimal_reg, if_pos (by simp), if_pos]
    simp only [List.isEmpty_nil, Bool.true_and, Bool.not_eq_true']
    cases rhos with
    | nil => exact absurd rfl hrne
    | cons a t => rfl

/-- C10: the selected value (and the whole outcome, warning included) is
invariant under permutation of the subsample collection. -/
theorem optimal_reg_perm_invariant {p : ℕ} (S : Stability) (rhos : List ℚ)
    {s2d₁ s2d₂ : List (List (Mat p))} (h : s2d₁.Perm s2d₂) :
    optimal_reg S rhos s2d₁ = optimal_reg S rhos s2d₂ := by
  have hmean := perm_meanAdjAt S h
  have hvar : varOfEntry S s2d₁ = varOfEntry S s2d₂ := by
    funext kv
    rw [varOfEntry, varOfEntry, hmean]
  have hall := perm_all h (fun deps => deps.length == rhos.length)
  have hie := perm_isEmpty h
  simp only [optimal_reg, scanSelect, runningMin, hvar, hall, hie]

/-! ### Dict-vs-position bookkeeping (C7) -/

/-- Enumeration projects back to the list. -/
lemma enumFrom_map_snd : ∀ (i : ℕ) (l : List ℚ), (enumFrom i l).map Prod.snd = l
  | _, [] => rfl
  | i, r :: rs => by
    rw [enumFrom, List.map_cons, enumFrom_map_snd (i + 1) rs]

/-- Building the dict from pairs with pairwise-distinct keys never
overwrites: it appends each `(value, index)` entry in order. -/
lemma buildDict_no_overwrite : ∀ (pairs : List (ℕ × ℚ)) (m : List (ℚ × ℕ)),
    (pairs.map Prod.snd).Nodup → (∀ kv ∈ m, ∀ iv ∈ pairs, kv.1 ≠ iv.2) →
    buildDict m pairs = m ++ pairs.map fun iv => (iv.2, iv.1)
  | [], m, _, _ => by simp [buildDict]
  | iv :: rest, m, hnd, hdisj => by
    rw [buildDict]
    have hins : dictInsert m iv.2 iv.1 = m ++ [(iv.2, iv.1)] := by
      rw [dictInsert, if_neg]
      intro hany
      obtain ⟨kv, hkv, heq⟩ := List.any_eq_true.mp hany
      exact hdisj kv hkv iv (List.mem_cons_self iv rest) (of_decide_eq_true heq)
    rw [hins, buildDict_no_overwrite rest (m ++ [(iv.2, iv.1)])]
    · simp
    · exact (List.nodup_cons.mp (by simpa using hnd)).2
    · intro kv hkv iv' hiv'
      rcases List.mem_append.mp hkv with hm | hsingle
      · exact hdisj kv hm iv' (List.mem_cons_of_mem iv hiv')
      · have hkv1 : kv.1 = iv.2 := by
          rcases List.mem_singleton.mp hsingle with rfl
          rfl
        rw [hkv1]
        intro hcontra
        have hmem : iv'.2 ∈ rest.map Prod.snd := List.mem_map_of_mem Prod.snd hiv'
        rw [← hcontra] at hmem
        exact (List.nodup_cons.mp (by simpa using hnd)).1 hmem

/-- For a duplicate-free path the rho dict is exactly the enumeration,
value first. -/
lemma rhoIdxDict_nodup (rhos : List ℚ) (h : rhos.Nodup) :
    rhoIdxDict rhos = (enumFrom 0 rhos).map fun iv => (iv.2, iv.1) := by
  rw [rhoIdxDict, buildDict_no_overwrite]
  · rw [List.nil_append]
  · rw [enumFrom_map_snd]
    exact h
  · intro kv hkv
    exact absurd hkv (List.not_mem_nil kv)

/-- `find?` only depends on the predicate's values on the list. -/
lemma find?_congr {α : Type _} (f g : α → Bool) :
    ∀ l : List α, (∀ x ∈ l, f x = g x) → l.find? f = l.find? g
  | [], _ => rfl
  | a :: t, h => by
    rw [List.find?_cons, List.find?_cons, h a (List.mem_cons_self a t)]
    cases g a with
    | true => rfl
    | false => exact find?_congr f g t fun x hx => h x (List.mem_cons_of_mem a hx)

/-- C7 (amended): the matrices aggregated for position `i` are each
subsample's `i`-th matrix, and for a *duplicate-free* path (sorted or not)
the value-keyed scan of the source agrees with the spec's by-position
selector.  (With duplicates they can disagree — see the counterexample —
because the score dict keyed by rho value keeps only the last position.) -/
theorem scan_agrees_byPos_of_nodup {p : ℕ} (S : Stability) (rhos : List ℚ)
    (s2d : List (List (Mat p))) (hnd : rhos.Nodup) :
    scanSelect S rhos s2d = optimal_reg_byPos S rhos s2d := by
  rw [scanSelect, optimal_reg_byPos]
  apply find?_congr
  intro rho _
  have hlist :
      ((rhoIdxDict rhos).filter fun kv => decide (kv.1 ≤ rho)).map (varOfEntry S s2d)
        = ((enumFrom 0 rhos).filter fun iv => decide (iv.2 ≤ rho)).map
            fun iv => adj_var (meanAdjAt S s2d iv.1) := by
    rw [rhoIdxDict_nodup rhos hnd, List.filter_map, List.map_map]
    rfl
  rw [runningMin, hlist]

/-! ### Evaluation lemmas for the concrete families -/

/-- `Emat` passes the symmetry test. -/
lemma allclose_E : allclose Emat (transpose Emat) = true := by
  rw [allclose_transpose_iff]
  intro i j
  fin_cases i <;> fin_cases j <;> norm_num [Emat, atol, rtol]

/-- The zero matrix thresholds to itself (no edges). -/
lemma dep2adj_Z : dep2adj S0 Zmat = Zmat := by
  funext i j
  have h : allclose Zmat (transpose Zmat) = true := allclose_self Zmat
  simp [dep2adj, h, Zmat, S0]

/-- The one-edge matrix thresholds to itself. -/
lemma dep2adj_E : dep2adj S0 Emat = Emat := by
  funext i j
  simp only [dep2adj, allclose_E, if_true]
  fin_cases i <;> fin_cases j <;> simp [Emat, S0] <;> norm_num

lemma s2adjs_A : sample2adjs S0 s2dA = s2dA := by
  simp [sample2adjs, s2dA, dep2adj_E, dep2adj_Z]

lemma s2adjs_B : sample2adjs S0 s2dB = s2dB := by
  simp [sample2adjs, s2dB, dep2adj_E, dep2adj_Z]

lemma s2adjs_C : sample2adjs S0 s2dC = s2dC := by
  simp [sample2adjs, s2dC, dep2adj_E, dep2adj_Z]

/-- Instability of a two-subsample mean adjacency from the summed edge
count `x` at the single pair `(0,1)`. -/
lemma var_of_adjSum (s2d : List (List (Mat 2))) (i : ℕ) (x : ℚ)
    (hsum : adjSumAt (sample2adjs S0 s2d) i 0 1 = x) (hlen : s2d.length = 2) :
    adj_var (meanAdjAt S0 s2d i) = some (2 * (x/2) * (1 - x/2)) := by
  rw [adj_var_two]
  have hm : meanAdjAt S0 s2d i 0 1 = x / 2 := by
    show adjSumAt (sample2adjs S0 s2d) i 0 1 / ((s2d.length : ℕ) : ℚ) = x / 2
    rw [hsum, hlen]
    norm_num
  rw [hm]

lemma varA0 : adj_var (meanAdjAt S0 s2dA 0) = some (1/2) := by
  have hsum : adjSumAt (sample2adjs S0 s2dA) 0 0 1 = 1 := by
    rw [s2adjs_A]
    show Emat 0 1 + (Zmat 0 1 + 0) = 1
    norm_num [Emat, Zmat]
  rw [var_of_adjSum s2dA 0 1 hsum rfl]
  norm_num

lemma varA1 : adj_var (meanAdjAt S0 s2dA 1) = some (1/2) := by
  have hsum : adjSumAt (sample2adjs S0 s2dA) 1 0 1 = 1 := by
    rw [s2adjs_A]
    show Emat 0 1 + (Zmat 0 1 + 0) = 1
    norm_num [Emat, Zmat]
  rw [var_of_adjSum s2dA 1 1 hsum rfl]
  norm_num

lemma varA2 : adj_var (meanAdjAt S0 s2dA 2) = some 0 := by
  have hsum : adjSumAt (sample2adjs S0 s2dA) 2 0 1 = 0 := by
    rw [s2adjs_A]
    show Zmat 0 1 + (Zmat 0 1 + 0) = 0
    norm_num [Zmat]
  rw [var_of_adjSum s2dA 2 0 hsum rfl]
  norm_num

lemma varB0 : adj_var (meanAdjAt S0 s2dB 0) = some (1/2) := by
  have hsum : adjSumAt (sample2adjs S0 s2dB) 0 0 1 = 1 := by
    rw [s2adjs_B]
    show Emat 0 1 + (Zmat 0 1 + 0) = 1
    norm_num [Emat, Zmat]
  rw [var_of_adjSum s2dB 0 1 hsum rfl]
  norm_num

lemma varB1 : adj_var (meanAdjAt S0 s2dB 1) = some (1/2) := by
  have hsum : adjSumAt (sample2adjs S0 s2dB) 1 0 1 = 1 := by
    rw [s2adjs_B]
    show Emat 0 1 + (Zmat 0 1 + 0) = 1
    norm_num [Emat, Zmat]
  rw [var_of_adjSum s2dB 1 1 hsum rfl]
  norm_num

lemma varC0 : adj_var (meanAdjAt S0 s2dC 0) = some 0 := by
  have hsum : adjSumAt (sample2adjs S0 s2dC) 0 0 1 = 0 := by
    rw [s2adjs_C]
    show Zmat 0 1 + (Zmat 0 1 + 0) = 0
    norm_num [Zmat]
  rw [var_of_adjSum s2dC 0 0 hsum rfl]
  norm_num

lemma varC1 : adj_var (meanAdjAt S0 s2dC 1) = some (1/2) := by
  have hsum : adjSumAt (sample2adjs S0 s2dC) 1 0 1 = 1 := by
    rw [s2adjs_C]
    show Emat 0 1 + (Zmat 0 1 + 0) = 1
    norm_num [Emat, Zmat]
  rw [var_of_adjSum s2dC 1 1 hsum rfl]
  norm_num

lemma varC2 : adj_var (meanAdjAt S0 s2dC 2) = some (1/2) := by
  have hsum : adjSumAt (sample2adjs S0 s2dC) 2 0 1 = 1 := by
    rw [s2adjs_C]
    show Emat 0 1 + (Zmat 0 1 + 0) = 1
    norm_num [Emat, Zmat]
  rw [var_of_adjSum s2dC 2 1 hsum rfl]
  norm_num

lemma varC3 : adj_var (meanAdjAt S0 s2dC 3) = some 0 := by
  have hsum : adjSumAt (sample2adjs S0 s2dC) 3 0 1 = 0 := by
    rw [s2adjs_C]
    show Zmat 0 1 + (Zmat 0 1 + 0) = 0
    norm_num [Zmat]
  rw [var_of_adjSum s2dC 3 0 hsum rfl]
  norm_num

/-- `0.5 <= 0.05` is false. -/
lemma nanLe_half_false : nanLe (some (1/2 : ℚ)) S0.beta = false := by
  show decide ((1/2 : ℚ) ≤ S0.beta) = false
  rw [decide_eq_false_iff_not]
  show ¬ (1/2 : ℚ) ≤ 1/20
  norm_num

/-- `0 <= 0.05` holds. -/
lemma nanLe_zero_true : nanLe (some (0 : ℚ)) S0.beta = true := by
  show decide ((0 : ℚ) ≤ S0.beta) = true
  rw [decide_eq_true_eq]
  show (0 : ℚ) ≤ 1/20
  norm_num

/-! Running minima on the concrete inputs. -/

lemma rmA1 : runningMin S0 [1, 3, 5] s2dA 1 = some (1/2) := by
  show adj_var (meanAdjAt S0 s2dA 0) = some (1/2)
  exact varA0

lemma rmA3 : runningMin S0 [1, 3, 5] s2dA 3 = some (1/2) := by
  show npMin [adj_var (meanAdjAt S0 s2dA 0), adj_var (meanAdjAt S0 s2dA 1)]
    = some (1/2)
  rw [varA0, varA1]
  show some (min (1/2 : ℚ) (1/2)) = some (1/2)
  rw [min_self]

lemma rmA5 : runningMin S0 [1, 3, 5] s2dA 5 = some 0 := by
  show npMin [adj_var (meanAdjAt S0 s2dA 0), adj_var (meanAdjAt S0 s2dA 1),
    adj_var (meanAdjAt S0 s2dA 2)] = some 0
  rw [varA0, varA1, varA2]
  show some (min (min (1/2 : ℚ) (1/2)) 0) = some 0
  rw [min_self, min_eq_right (by norm_num : (0:ℚ) ≤ 1/2)]

lemma rmB5 : runningMin S0 [5, 5] s2dB 5 = some (1/2) := by
  show adj_var (meanAdjAt S0 s2dB 1) = some (1/2)
  exact varB1

lemma rmB1 : runningMin S0 [1, 3] s2dB 1 = some (1/2) := by
  show adj_var (meanAdjAt S0 s2dB 0) = some (1/2)
  exact varB0

lemma rmB3 : runningMin S0 [1, 3] s2dB 3 = some (1/2) := by
  show npMin [adj_var (meanAdjAt S0 s2dB 0), adj_var (meanAdjAt S0 s2dB 1)]
    = some (1/2)
  rw [varB0, varB1]
  show some (min (1/2 : ℚ) (1/2)) = some (1/2)
  rw [min_self]

lemma rmC1 : runningMin S0 [1, 1, 3, 5] s2dC 1 = some (1/2) := by
  show adj_var (meanAdjAt S0 s2dC 1) = some (1/2)
  exact varC1

lemma rmC3 : runningMin S0 [1, 1, 3, 5] s2dC 3 = some (1/2) := by
  show npMin [adj_var (meanAdjAt S0 s2dC 1), adj_var (meanAdjAt S0 s2dC 2)]
    = some (1/2)
  rw [varC1, varC2]
  show some (min (1/2 : ℚ) (1/2)) = some (1/2)
  rw [min_self]

lemma rmC5 : runningMin S0 [1, 1, 3, 5] s2dC 5 = some 0 := by
  show npMin [adj_var (meanAdjAt S0 s2dC 1), adj_var (meanAdjAt S0 s2dC 2),
    adj_var (meanAdjAt S0 s2dC 3)] = some 0
  rw [varC1, varC2, varC3]
  show some (min (min (1/2 : ℚ) (1/2)) 0) = some 0
  rw [min_self, min_eq_right (by norm_num : (0:ℚ) ≤ 1/2)]

/-! ### Witnesses and counterexamples for the selector claims -/

/-- Witness for C1: instability sequence `[1/2, 1/2, 0]` over ascending
path `[1, 3, 5]` with `beta = 0.05` selects `5` — the first (and only)
candidate whose running minimum meets the bound — with no warning. -/
theorem optimal_reg_first_match_witness :
    optimal_reg S0 [1, 3, 5] s2dA = .ok (5, false) := by
  refine (optimal_reg_first_match S0 [1, 3, 5] s2dA (by decide)
    (by simp [s2dA]) [1, 3] 5 [] (by decide) ?_ ?_).1
  · intro x hx
    rcases List.mem_cons.mp hx with rfl | hx'
    · rw [rmA1]
      exact nanLe_half_false
    · rcases List.mem_singleton.mp hx' with rfl
      rw [rmA3]
      exact nanLe_half_false
  · rw [rmA5]
    exact nanLe_zero_true

/-- Counterexample to C2 as stated: with the duplicated path `[5, 5]`
(a single *distinct* value) and no candidate meeting the bound, the
fallback `sorted(rhos)[-2]` indexes the full sorted list, returning `5`
with a warning — no `IndexError` occurs, and the value returned is not the
second-largest distinct value (there is none). -/
theorem fallback_single_distinct_value_no_error :
    optimal_reg S0 [5, 5] s2dB = .ok (5, true) ∧
      ([5, 5] : List ℚ).dedup.length = 1 := by
  constructor
  · rw [optimal_reg_eq_scan S0 [5, 5] s2dB (by decide) (by simp [s2dB])]
    have hscan : scanSelect S0 [5, 5] s2dB = none := by
      rw [scanSelect, List.find?_eq_none]
      intro x hx
      rw [show sortRhos [5, 5] = [5, 5] from by decide] at hx
      have hx5 : x = 5 := by
        rcases List.mem_cons.mp hx with rfl | hx'
        · rfl
        · exact List.mem_singleton.mp hx'
      subst hx5
      rw [rmB5, nanLe_half_false]
      simp
    rw [hscan]
    rw [if_neg (by decide)]
    rw [show (sortRhos [5, 5]).getD (([5, 5] : List ℚ).length - 2) 0 = (5:ℚ)
      from by decide]
  · decide

/-- Witness for C2 (amended): path `[1, 3]`, instability `1/2` everywhere;
no candidate meets the bound, so the fallback returns `sorted([1,3])[-2] = 1`
with the warning. -/
theorem optimal_reg_fallback_witness :
    optimal_reg S0 [1, 3] s2dB = .ok (1, true) := by
  have hscan : scanSelect S0 [1, 3] s2dB = none := by
    rw [scanSelect, List.find?_eq_none]
    intro x hx
    rw [show sortRhos [1, 3] = [1, 3] from by decide] at hx
    rcases List.mem_cons.mp hx with rfl | hx'
    · rw [rmB1, nanLe_half_false]
      simp
    · rcases List.mem_singleton.mp hx' with rfl
      rw [rmB3, nanLe_half_false]
      simp
  have h := (optimal_reg_fallback S0 [1, 3] s2dB (by decide)
    (by simp [s2dB]) hscan).1 (by decide)
  rw [h]
  rw [show (sortRhos [1, 3]).getD (([1, 3] : List ℚ).length - 2) 0 = (1:ℚ)
    from by decide]

/-- Counterexample to C7 as stated: with the duplicated path `[1, 1, 3, 5]`
and per-position instabilities `[0, 1/2, 1/2, 0]`, the value-keyed dict
keeps only position 1 for the value `1`, so the source selects `5`, while
the spec's by-position selector (each position keeping its own score)
selects `1`. -/
theorem duplicate_rhos_change_selection :
    optimal_reg S0 [1, 1, 3, 5] s2dC = .ok (5, false) ∧
      optimal_reg_byPos S0 [1, 1, 3, 5] s2dC = some 1 ∧ (5 : ℚ) ≠ 1 := by
  refine ⟨?_, ?_, by norm_num⟩
  · rw [optimal_reg_eq_scan S0 [1, 1, 3, 5] s2dC (by decide) (by simp [s2dC])]
    have hscan : scanSelect S0 [1, 1, 3, 5] s2dC = some 5 := by
      rw [scanSelect, show sortRhos [1, 1, 3, 5] = [1, 1, 3] ++ 5 :: []
        from by decide]
      apply find?_first
      · intro x hx
        rcases List.mem_cons.mp hx with rfl | hx'
        · rw [rmC1]
          exact nanLe_half_false
        · rcases List.mem_cons.mp hx' with rfl | hx''
          · rw [rmC1]
            exact nanLe_half_false
          · rcases List.mem_singleton.mp hx'' with rfl
            rw [rmC3]
            exact nanLe_half_false
      · rw [rmC5]
        exact nanLe_zero_true
    rw [hscan]
  · rw [optimal_reg_byPos, show sortRhos [1, 1, 3, 5] = 1 :: [1, 3, 5]
      from by decide]
    apply List.find?_cons_of_pos
    show nanLe (npMin [adj_var (meanAdjAt S0 s2dC 0),
      adj_var (meanAdjAt S0 s2dC 1)]) S0.beta = true
    rw [varC0, varC1]
    show nanLe (some (min (0 : ℚ) (1/2))) S0.beta = true
    rw [min_eq_left (by norm_num : (0:ℚ) ≤ 1/2)]
    exact nanLe_zero_true

/-- Witness for C7 (amended): on the duplicate-free path `[1, 3]` the
source's value-keyed scan and the by-position selector agree. -/
theorem scan_agrees_byPos_of_nodup_witness :
    scanSelect S0 [1, 3] s2dB = optimal_reg_byPos S0 [1, 3] s2dB :=
  scan_agrees_byPos_of_nodup S0 [1, 3] s2dB (by decide)

/-- Counterexample to C8 as stated: an empty `sample2deps` passes the
`assert` (`np.all([]) = True`); the call fails only later, in the
aggregation loop, with a `TypeError` from `reduce(np.add, [])` — not with
the ShapeMismatchError the claim requires. -/
theorem empty_sample2deps_not_shape_error :
    optimal_reg S0 [1] ([] : List (List (Mat 2))) = .error .typeError ∧
      PyErr.typeError ≠ PyErr.shapeMismatch :=
  ⟨rfl, by decide⟩

/-- Witness for C8 (amended): a subsample with no matrices against a
one-element path raises the assert; an empty `sample2deps` against a
two-element path raises the later `TypeError`. -/
theorem optimal_reg_precondition_errors_witness :
    optimal_reg S0 [1] ([[]] : List (List (Mat 2))) = .error .shapeMismatch ∧
      optimal_reg S0 ([1, 3] : List ℚ) ([] : List (List (Mat 2)))
        = .error .typeError :=
  ⟨(optimal_reg_precondition_errors S0).1 [1] [[]] ⟨[], by simp, by simp⟩,
   (optimal_reg_precondition_errors S0).2 [1, 3] (by simp)⟩

/-- Witness for C10: swapping the two subsamples leaves the outcome
unchanged. -/
theorem optimal_reg_perm_invariant_witness :
    optimal_reg S0 [1] [[Emat], [Zmat]] = optimal_reg S0 [1] [[Zmat], [Emat]] :=
  optimal_reg_perm_invariant S0 [1] (List.Perm.swap [Zmat] [Emat] [])

end Fusenet
